import Mathlib

/-!
Verification of the conversation-building core of the "AI Chat as Markdown"
Obsidian plugin (src/main.ts), as a shallow embedding in Lean 4.

Modelling conventions:
* Document text, heading text, link text, file names are `List Char`
  (JS strings indexed by code units; all inputs of interest are ASCII).
* Obsidian `Loc` positions carry `line` and `offset` (the `col` field is
  unused by the code under verification and omitted).
* The `end` field of a position range is named `stop` (`end` is a Lean
  keyword); `position.stop` corresponds to `position.end` in the source.
* The Obsidian collaborators (metadata cache, vault, link resolution,
  subpath resolution, image rasterisation) are bundled into an `Env`
  record of abstract functions, instantiated concretely in witnesses.
* Fallible TypeScript code (`throw`) is modelled with `Except (List Char)`.
-/

/-- A position in a document: 0-based line and 0-based character offset. -/
structure Loc where
  line : Nat
  offset : Nat
deriving DecidableEq, Repr

/-- A start/end position pair, as in Obsidian `Pos`.  The source's
`position.end` is `position.stop` here. -/
structure PosRange where
  start : Loc
  stop : Loc
deriving DecidableEq, Repr

/-- Obsidian `HeadingCache`: heading level, visible text, and position of the
heading line. -/
structure HeadingCache where
  level : Nat
  heading : List Char
  position : PosRange
deriving DecidableEq, Repr

instance : Inhabited HeadingCache :=
  ⟨{ level := 0, heading := [], position := ⟨⟨0, 0⟩, ⟨0, 0⟩⟩ }⟩

/-- Obsidian `EmbedCache`: the link target text and the position of the
embed syntax in the document. -/
structure EmbedCache where
  link : List Char
  position : PosRange
deriving DecidableEq, Repr

/-- Obsidian `EditorPosition`: line and character-in-line. -/
structure EditorPosition where
  line : Nat
  ch : Nat
deriving DecidableEq, Repr

/-- Obsidian `TFile`; only the fields the code reads. -/
structure TFile where
  path : List Char
  basename : List Char
  extension : List Char
deriving DecidableEq, Repr

/-- The slice of an Obsidian file cache the code reads: headings and embeds,
both in document order. -/
structure FileCache where
  headings : List HeadingCache
  embeds : List EmbedCache
deriving DecidableEq, Repr

/-- Result of Obsidian `resolveSubpath`: either a heading (with the following
heading, if any) or a block with its position. -/
inductive SubpathResult where
  | heading (current : HeadingCache) (next : Option HeadingCache)
  | block (position : PosRange)
deriving DecidableEq, Repr

/-- The external collaborators of the core, bundled: metadata cache lookups,
vault reads, link and subpath resolution, and image rasterisation
(`imageToDataURL`; `none` models a rejected promise). -/
structure Env where
  getFileCache : TFile → Option FileCache
  cachedRead : TFile → List Char
  getFirstLinkpathDest : List Char → List Char → Option TFile
  resolveSubpath : FileCache → List Char → Option SubpathResult
  imageToDataURL : TFile → Option (List Char)
  readBinary : TFile → List Nat

/-! ### Editor model

The Obsidian `Editor` is modelled by its document text (`List Char`); the
functions below mirror `getLine`, `lastLine`, `posToOffset`, `getRange`,
`getValue`.  Lines are separated by `'\n'`. -/

/-- Split a document into its lines (separator `'\n'`; always nonempty). -/
def splitLines : List Char → List (List Char)
  | [] => [[]]
  | c :: rest =>
    match splitLines rest with
    | [] => [[]]
    | l :: ls => if c = '\n' then [] :: l :: ls else (c :: l) :: ls

/-- `editor.getLine(l)`. -/
def getLine (doc : List Char) (l : Nat) : List Char :=
  (splitLines doc).getD l []

/-- `editor.lastLine()`: index of the last line. -/
def lastLine (doc : List Char) : Nat :=
  (splitLines doc).length - 1

/-- `editor.posToOffset(pos)`: character offset of a line/ch position. -/
def posToOffset (doc : List Char) (pos : EditorPosition) : Nat :=
  (((splitLines doc).take pos.line).foldl (fun a s => a + s.length + 1) 0) + pos.ch

/-- `editor.getRange(from, to)`: text between two positions, end exclusive. -/
def getRange (doc : List Char) (f t : EditorPosition) : List Char :=
  ((doc.take (posToOffset doc t)).drop (posToOffset doc f))

/-! ### String helpers mirroring the JavaScript operations used -/

/-- JS `String.prototype.slice(a, b)` (end exclusive, clamped). -/
def sliceStr (s : List Char) (a b : Nat) : List Char :=
  (s.take b).drop a

/-- JS `String.prototype.substring(a, b?)`: swaps out-of-order arguments,
`none` for the second argument means end of string. -/
def substringStr (s : List Char) (a : Nat) (b : Option Nat) : List Char :=
  match b with
  | none => s.drop a
  | some b => (s.take (max a b)).drop (min a b)

/-- JS `String.prototype.trim()` (ASCII whitespace). -/
def trimStr (s : List Char) : List Char :=
  ((s.dropWhile Char.isWhitespace).reverse.dropWhile Char.isWhitespace).reverse

/-- JS `String.prototype.toUpperCase()` (ASCII). -/
def toUpperStr (s : List Char) : List Char := s.map Char.toUpper

/-- JS `String.prototype.toLowerCase()` (ASCII). -/
def toLowerStr (s : List Char) : List Char := s.map Char.toLower

/-- JS `String.prototype.startsWith(p)`. -/
def startsWithStr (s p : List Char) : Bool := p.isPrefixOf s

/-! ### Heading index (source: `getHeadingRange`, main.ts lines 491-518) -/

/-- Result record of `getHeadingRange`. -/
structure HeadingRangeResult where
  rangeStartOffset : Nat
  rangeEnd : EditorPosition
  rangeEndOffset : Nat
deriving DecidableEq, Repr

/-- `getHeadingRange(headings, i, editor)`: the range of text starting right
after heading `i` and continuing to right before heading `i+1` or end of doc. -/
def getHeadingRange (headings : List HeadingCache) (i : Nat) (doc : List Char) :
    HeadingRangeResult :=
  let heading := headings.getD i default
  match headings.get? (i + 1) with
  | some nextHeading =>
    let line := nextHeading.position.start.line - 1
    { rangeStartOffset := heading.position.stop.offset + 1
      rangeEnd := ⟨line, (getLine doc line).length⟩
      rangeEndOffset := nextHeading.position.start.offset - 1 }
  | none =>
    let ll := lastLine doc
    { rangeStartOffset := heading.position.stop.offset + 1
      rangeEnd := ⟨ll, (getLine doc ll).length⟩
      rangeEndOffset := doc.length }

/-! ### Role classification (source: main.ts lines 439-443) -/

/-- Role of a heading in the thread: uppercase the heading text; if it starts
with "AI" or "ASSISTANT" the heading is an assistant turn, else a user turn. -/
def headingRole (heading : List Char) : List Char :=
  let uHeading := toUpperStr heading
  if startsWithStr uHeading "AI".toList ∨ startsWithStr uHeading "ASSISTANT".toList
  then "assistant".toList else "user".toList

/-! ### Theorems for claims C3 and C6 -/

/-- C3: for every heading index `i`, `getHeadingRange` returns a content range
whose start offset is heading `i`'s end offset plus one, and whose end offset
is heading `i+1`'s start offset minus one when a next heading exists, and the
full document text length otherwise. -/
theorem getHeadingRange_offsets (headings : List HeadingCache) (i : Nat)
    (doc : List Char) :
    (getHeadingRange headings i doc).rangeStartOffset =
      (headings.getD i default).position.stop.offset + 1 ∧
    (∀ nextHeading, headings.get? (i + 1) = some nextHeading →
      (getHeadingRange headings i doc).rangeEndOffset =
        nextHeading.position.start.offset - 1) ∧
    (headings.get? (i + 1) = none →
      (getHeadingRange headings i doc).rangeEndOffset = doc.length) := by
  refine ⟨?_, ?_, ?_⟩
  · unfold getHeadingRange
    cases headings.get? (i + 1) <;> rfl
  · intro nextHeading h
    unfold getHeadingRange
    rw [h]
  · intro h
    unfold getHeadingRange
    rw [h]

/-- C3 witness: heading A ends at offset 100 and heading B starts at offset
150; A's content range is `[101, 149)`. -/
theorem getHeadingRange_offsets_witness :
    (getHeadingRange
      [ { level := 1, heading := "A".toList, position := ⟨⟨0, 90⟩, ⟨0, 100⟩⟩ },
        { level := 1, heading := "B".toList, position := ⟨⟨9, 150⟩, ⟨9, 160⟩⟩ } ]
      0 []).rangeStartOffset = 101 ∧
    (getHeadingRange
      [ { level := 1, heading := "A".toList, position := ⟨⟨0, 90⟩, ⟨0, 100⟩⟩ },
        { level := 1, heading := "B".toList, position := ⟨⟨9, 150⟩, ⟨9, 160⟩⟩ } ]
      0 []).rangeEndOffset = 149 := by
  have h := getHeadingRange_offsets
    [ { level := 1, heading := "A".toList, position := ⟨⟨0, 90⟩, ⟨0, 100⟩⟩ },
      { level := 1, heading := "B".toList, position := ⟨⟨9, 150⟩, ⟨9, 160⟩⟩ } ]
    0 []
  refine ⟨?_, ?_⟩
  · exact h.1
  · exact h.2.1 { level := 1, heading := "B".toList, position := ⟨⟨9, 150⟩, ⟨9, 160⟩⟩ } rfl

/-- C6: a heading is classified as assistant if and only if its text,
uppercased, starts with "AI" or "ASSISTANT", and as user otherwise; in
particular the headings "AI: follow-up", "ai quick check", "Assistant notes"
and "Aiden's question" are all classified as assistant. -/
theorem headingRole_iff (h : List Char) :
    (headingRole h = "assistant".toList ↔
      (startsWithStr (toUpperStr h) "AI".toList ∨
       startsWithStr (toUpperStr h) "ASSISTANT".toList)) ∧
    (headingRole h = "user".toList ↔
      ¬ (startsWithStr (toUpperStr h) "AI".toList ∨
         startsWithStr (toUpperStr h) "ASSISTANT".toList)) ∧
    headingRole ("AI: follow-up".toList) = "assistant".toList ∧
    headingRole ("ai quick check".toList) = "assistant".toList ∧
    headingRole ("Assistant notes".toList) = "assistant".toList ∧
    headingRole ("Aiden".toList ++ [Char.ofNat 39] ++ "s question".toList) =
      "assistant".toList := by
  refine ⟨?_, ?_, by decide, by decide, by decide, by decide⟩
  · unfold headingRole
    dsimp only
    split_ifs with hc
    · exact ⟨fun _ => hc, fun _ => rfl⟩
    · exact ⟨fun he => absurd he (by decide), fun hcc => absurd hcc hc⟩
  · unfold headingRole
    dsimp only
    split_ifs with hc
    · exact ⟨fun he => absurd he (by decide), fun hn => absurd hc hn⟩
    · exact ⟨fun _ => hc, fun _ => rfl⟩

/-! ### Range resolver and content part builder
(source: `convertRangeToContentParts`, main.ts lines 162-357) -/

/-- Intermediate entry of the first loop of `convertRangeToContentParts`:
either a trimmed text slice or an embed reference. -/
inductive RangePart where
  | text (text : List Char)
  | embed (embed : EmbedCache)
deriving DecidableEq, Repr

/-- A content part, the extended OpenAI `ChatCompletionContentPart` of the
source: text, a base64 image data URL, or a raw image buffer. -/
inductive ContentPart where
  | text (text : List Char)
  | image_url (url : List Char)
  | image_buffer (image_buffer : List Nat) (mime_type : List Char)
      (basename : List Char)
deriving DecidableEq, Repr

/-- Obsidian `parseLinktext`: split a link into its path (before the first
`'#'`) and subpath (from the first `'#'` on, empty when there is none). -/
def parseLinktext (link : List Char) : List Char × List Char :=
  match link.findIdx? (· = '#') with
  | none => (link, [])
  | some i => (link.take i, link.drop i)

/-- First loop of `convertRangeToContentParts`: walk the embeds keeping a
`currentStart` cursor; for each embed contained in `[sOff, eOff]` push the
trimmed text gap before it (when nonempty as a span) and the embed itself,
moving `currentStart` one past the embed's end; after the loop push the
trimmed trailing text when `eOff > currentStart`. -/
def splitRangeAux (markdown : List Char) (sOff eOff : Nat) :
    List EmbedCache → Nat → List RangePart
  | [], currentStart =>
    if eOff > currentStart then
      [RangePart.text (trimStr (sliceStr markdown currentStart eOff))]
    else []
  | embed :: rest, currentStart =>
    if embed.position.start.offset ≥ sOff ∧ embed.position.stop.offset ≤ eOff then
      (if embed.position.start.offset > currentStart then
        [RangePart.text (trimStr
          (sliceStr markdown currentStart embed.position.start.offset))]
      else []) ++
      RangePart.embed embed ::
        splitRangeAux markdown sOff eOff rest (embed.position.stop.offset + 1)
    else
      splitRangeAux markdown sOff eOff rest currentStart

/-- The markdown text contributed by an embedded markdown file: the whole
file, unless the link carries a subpath that resolves against the embedded
file's cache, in which case the heading section (from the heading's start to
the next heading's start, or end of file) or the block range is sliced out. -/
def embedMarkdownText (env : Env) (embeddedFile : TFile) (subpath : List Char) :
    List Char :=
  let embeddedMarkdown := env.cachedRead embeddedFile
  if subpath ≠ [] then
    match env.getFileCache embeddedFile with
    | none => embeddedMarkdown
    | some embeddedCache =>
      match env.resolveSubpath embeddedCache subpath with
      | none => embeddedMarkdown
      | some (SubpathResult.heading current next) =>
        substringStr embeddedMarkdown current.position.start.offset
          (next.map (fun n => n.position.start.offset))
      | some (SubpathResult.block position) =>
        substringStr embeddedMarkdown position.start.offset
          (some position.stop.offset)
  else embeddedMarkdown

/-- Second loop body of `convertRangeToContentParts`: convert one
intermediate part into its content parts.  Nonempty text is kept; an embed is
resolved via `getFirstLinkpathDest` (silently skipped when that fails); a
markdown target contributes its (possibly subpath-sliced) text; a non-markdown
target is treated as an image: in base64 mode a successful rasterisation
yields an `image_url` part (failure is caught and skipped), otherwise a
supported extension yields an `image_buffer` part and anything else is
skipped. -/
def partToContentParts (env : Env) (markdownFile : TFile) (base64Images : Bool) :
    RangePart → List ContentPart
  | RangePart.text t => if t ≠ [] then [ContentPart.text t] else []
  | RangePart.embed embed =>
    if embed.link ≠ [] then
      let parsedLink := parseLinktext embed.link
      match env.getFirstLinkpathDest parsedLink.1 markdownFile.path with
      | none => []
      | some embeddedFile =>
        if embeddedFile.extension = "md".toList then
          [ContentPart.text (embedMarkdownText env embeddedFile parsedLink.2)]
        else
          if base64Images then
            match env.imageToDataURL embeddedFile with
            | some dataURL => [ContentPart.image_url dataURL]
            | none => []
          else
            let ext := toLowerStr embeddedFile.extension
            if ext = "png".toList ∨ ext = "webp".toList ∨ ext = "jpg".toList ∨
                ext = "jpeg".toList then
              [ContentPart.image_buffer (env.readBinary embeddedFile)
                (if ext = "jpg".toList then "image/jpeg".toList
                 else "image/".toList ++ ext)
                embeddedFile.basename]
            else []
    else []

/-- The pure core of `convertRangeToContentParts` once the cache and file
text are in hand: split the range, then convert each part in order. -/
def rangeContentParts (markdown : List Char) (sOff eOff : Nat)
    (embeds : List EmbedCache) (env : Env) (markdownFile : TFile)
    (base64Images : Bool) : List ContentPart :=
  (splitRangeAux markdown sOff eOff embeds sOff).flatMap
    (partToContentParts env markdownFile base64Images)

/-- `convertRangeToContentParts(startOffset, endOffset, markdownFile, vault,
metadataCache, base64Images, debug)`: fails when the file cache is missing,
otherwise reads the file and builds the ordered content-part list for the
range (`none` bounds mean start / end of file). -/
def convertRangeToContentParts (startOffset endOffset : Option Nat)
    (markdownFile : TFile) (env : Env) (base64Images : Bool) :
    Except (List Char) (List ContentPart) :=
  match env.getFileCache markdownFile with
  | none => Except.error
      ("convertRangeToContentParts() could not find cache for ".toList ++
        markdownFile.path)
  | some cache =>
    let embeds := cache.embeds
    let markdown := env.cachedRead markdownFile
    let sOff := startOffset.getD 0
    let eOff := endOffset.getD markdown.length
    Except.ok (rangeContentParts markdown sOff eOff embeds env markdownFile
      base64Images)

/-! ### Theorems for claims C4 and C5 -/

/-- A vault with no resolvable files, used to instantiate general theorems. -/
def triv_env : Env :=
  { getFileCache := fun _ => none
    cachedRead := fun _ => []
    getFirstLinkpathDest := fun _ _ => none
    resolveSubpath := fun _ _ => none
    imageToDataURL := fun _ => none
    readBinary := fun _ => [] }

/-- Helper: a JS substring of a list is an infix of it. -/
theorem substringStr_isInfix (s : List Char) (a : Nat) (b : Option Nat) :
    substringStr s a b <:+: s := by
  cases b with
  | none => exact (List.drop_suffix _ _).isInfix
  | some b =>
    exact ((List.drop_suffix _ _).isInfix).trans (List.take_prefix _ _).isInfix

/-- C4: an embed whose position is not entirely contained in
`[sOff, eOff]` contributes no part at all: both the intermediate part list
and the final content-part list are unchanged when the embed is deleted
from the embed list. -/
theorem embed_not_contained_no_part (markdown : List Char) (sOff eOff : Nat)
    (l₁ l₂ : List EmbedCache) (emb : EmbedCache) (env : Env)
    (markdownFile : TFile) (base64Images : Bool)
    (h : ¬(emb.position.start.offset ≥ sOff ∧ emb.position.stop.offset ≤ eOff)) :
    (∀ currentStart,
      splitRangeAux markdown sOff eOff (l₁ ++ emb :: l₂) currentStart =
        splitRangeAux markdown sOff eOff (l₁ ++ l₂) currentStart) ∧
    rangeContentParts markdown sOff eOff (l₁ ++ emb :: l₂) env markdownFile
        base64Images =
      rangeContentParts markdown sOff eOff (l₁ ++ l₂) env markdownFile
        base64Images := by
  have key : ∀ (l : List EmbedCache) (cs : Nat),
      splitRangeAux markdown sOff eOff (l ++ emb :: l₂) cs =
        splitRangeAux markdown sOff eOff (l ++ l₂) cs := by
    intro l
    induction l with
    | nil =>
      intro cs
      simp only [List.nil_append, splitRangeAux]
      rw [if_neg h]
    | cons e t ih =>
      intro cs
      simp only [List.cons_append, splitRangeAux]
      split_ifs with hc <;> simp only [List.append_eq] <;> rw [ih]
  refine ⟨fun cs => key l₁ cs, ?_⟩
  unfold rangeContentParts
  rw [key]

/-- C4 witness: range `[0, 5]`, embed spanning `[3, 6]` (one past the range
end): output is a single text part, identical to the output with no embed
at all. -/
theorem embed_not_contained_no_part_witness :
    ¬((3 : Nat) ≥ 0 ∧ (6 : Nat) ≤ 5) ∧
    rangeContentParts ("ab cd efg".toList) 0 5
        ([] ++ ⟨"e".toList, ⟨⟨0, 3⟩, ⟨0, 6⟩⟩⟩ :: []) triv_env
        ⟨"m.md".toList, "m".toList, "md".toList⟩ true =
      rangeContentParts ("ab cd efg".toList) 0 5 ([] ++ [])
        triv_env ⟨"m.md".toList, "m".toList, "md".toList⟩ true ∧
    rangeContentParts ("ab cd efg".toList) 0 5
        [⟨"e".toList, ⟨⟨0, 3⟩, ⟨0, 6⟩⟩⟩] triv_env
        ⟨"m.md".toList, "m".toList, "md".toList⟩ true =
      [ContentPart.text ("ab cd".toList)] := by
  refine ⟨by decide, ?_, by decide⟩
  exact (embed_not_contained_no_part ("ab cd efg".toList) 0 5 [] []
    ⟨"e".toList, ⟨⟨0, 3⟩, ⟨0, 6⟩⟩⟩ triv_env
    ⟨"m.md".toList, "m".toList, "md".toList⟩ true (by decide)).2

/-- C5 counterexample: the split does not reorder its input, so when the
embed array is NOT in document order the output is not in document order
either: with the two embeds supplied in reversed order, the part for the
later embed precedes the part for the earlier one. -/
theorem splitRange_reordered_embeds_counterexample :
    splitRangeAux ("aaaa!!!!bbbb!!!!cccc".toList) 0 20
        [⟨"e2".toList, ⟨⟨0, 12⟩, ⟨0, 15⟩⟩⟩, ⟨"e1".toList, ⟨⟨0, 4⟩, ⟨0, 7⟩⟩⟩] 0 =
      [RangePart.text ("aaaa!!!!bbbb".toList),
       RangePart.embed ⟨"e2".toList, ⟨⟨0, 12⟩, ⟨0, 15⟩⟩⟩,
       RangePart.embed ⟨"e1".toList, ⟨⟨0, 4⟩, ⟨0, 7⟩⟩⟩,
       RangePart.text ("bbbb!!!!cccc".toList)] ∧
    splitRangeAux ("aaaa!!!!bbbb!!!!cccc".toList) 0 20
        [⟨"e2".toList, ⟨⟨0, 12⟩, ⟨0, 15⟩⟩⟩, ⟨"e1".toList, ⟨⟨0, 4⟩, ⟨0, 7⟩⟩⟩] 0 ≠
      [RangePart.text ("aaaa".toList),
       RangePart.embed ⟨"e1".toList, ⟨⟨0, 4⟩, ⟨0, 7⟩⟩⟩,
       RangePart.text ("bbbb".toList),
       RangePart.embed ⟨"e2".toList, ⟨⟨0, 12⟩, ⟨0, 15⟩⟩⟩,
       RangePart.text ("cccc".toList)] := by
  refine ⟨by decide, by decide⟩

/-- C5 amended: when the embed array is in document order (as the metadata
cache supplies it), the output is strictly in document order: a range holding
in order text A, an embed, text B, an embed, text C yields exactly
`[text A, embed, text B, embed, text C]`, and the content-part list is the
in-order concatenation of the parts of each entry. -/
theorem splitRange_doc_order_sorted (markdown : List Char) (sOff eOff : Nat)
    (e1 e2 : EmbedCache) (env : Env) (markdownFile : TFile) (b64 : Bool)
    (hw1 : e1.position.start.offset ≤ e1.position.stop.offset)
    (hw2 : e2.position.start.offset ≤ e2.position.stop.offset)
    (h1 : e1.position.start.offset > sOff)
    (h2 : e2.position.start.offset > e1.position.stop.offset + 1)
    (h3 : eOff > e2.position.stop.offset + 1) :
    splitRangeAux markdown sOff eOff [e1, e2] sOff =
      [RangePart.text (trimStr (sliceStr markdown sOff e1.position.start.offset)),
       RangePart.embed e1,
       RangePart.text (trimStr (sliceStr markdown (e1.position.stop.offset + 1)
         e2.position.start.offset)),
       RangePart.embed e2,
       RangePart.text (trimStr (sliceStr markdown (e2.position.stop.offset + 1)
         eOff))] ∧
    rangeContentParts markdown sOff eOff [e1, e2] env markdownFile b64 =
      partToContentParts env markdownFile b64
        (RangePart.text (trimStr (sliceStr markdown sOff
          e1.position.start.offset))) ++
      partToContentParts env markdownFile b64 (RangePart.embed e1) ++
      partToContentParts env markdownFile b64
        (RangePart.text (trimStr (sliceStr markdown
          (e1.position.stop.offset + 1) e2.position.start.offset))) ++
      partToContentParts env markdownFile b64 (RangePart.embed e2) ++
      partToContentParts env markdownFile b64
        (RangePart.text (trimStr (sliceStr markdown
          (e2.position.stop.offset + 1) eOff))) := by
  have c1 : e1.position.start.offset ≥ sOff ∧ e1.position.stop.offset ≤ eOff :=
    ⟨by omega, by omega⟩
  have c2 : e2.position.start.offset ≥ sOff ∧ e2.position.stop.offset ≤ eOff :=
    ⟨by omega, by omega⟩
  have hsplit : splitRangeAux markdown sOff eOff [e1, e2] sOff =
      [RangePart.text (trimStr (sliceStr markdown sOff e1.position.start.offset)),
       RangePart.embed e1,
       RangePart.text (trimStr (sliceStr markdown (e1.position.stop.offset + 1)
         e2.position.start.offset)),
       RangePart.embed e2,
       RangePart.text (trimStr (sliceStr markdown (e2.position.stop.offset + 1)
         eOff))] := by
    simp only [splitRangeAux]
    rw [if_pos c1, if_pos h1, if_pos c2, if_pos h2, if_pos h3]
    simp
  refine ⟨hsplit, ?_⟩
  unfold rangeContentParts
  rw [hsplit]
  simp [List.append_assoc]

/-- C5 amended witness: the same two embeds supplied in document order give
the document-order output. -/
theorem splitRange_doc_order_sorted_witness :
    ((4 : Nat) ≤ 7 ∧ (12 : Nat) ≤ 15 ∧ (4 : Nat) > 0 ∧ (12 : Nat) > 7 + 1 ∧
      (20 : Nat) > 15 + 1) ∧
    splitRangeAux ("aaaa!!!!bbbb!!!!cccc".toList) 0 20
        [⟨"e1".toList, ⟨⟨0, 4⟩, ⟨0, 7⟩⟩⟩, ⟨"e2".toList, ⟨⟨0, 12⟩, ⟨0, 15⟩⟩⟩] 0 =
      [RangePart.text (trimStr (sliceStr ("aaaa!!!!bbbb!!!!cccc".toList) 0 4)),
       RangePart.embed ⟨"e1".toList, ⟨⟨0, 4⟩, ⟨0, 7⟩⟩⟩,
       RangePart.text (trimStr (sliceStr ("aaaa!!!!bbbb!!!!cccc".toList) (7 + 1) 12)),
       RangePart.embed ⟨"e2".toList, ⟨⟨0, 12⟩, ⟨0, 15⟩⟩⟩,
       RangePart.text (trimStr (sliceStr ("aaaa!!!!bbbb!!!!cccc".toList) (15 + 1) 20))] ∧
    trimStr (sliceStr ("aaaa!!!!bbbb!!!!cccc".toList) 0 4) = "aaaa".toList := by
  refine ⟨by decide, ?_, by decide⟩
  exact (splitRange_doc_order_sorted ("aaaa!!!!bbbb!!!!cccc".toList) 0 20
    ⟨"e1".toList, ⟨⟨0, 4⟩, ⟨0, 7⟩⟩⟩ ⟨"e2".toList, ⟨⟨0, 12⟩, ⟨0, 15⟩⟩⟩
    triv_env ⟨"m.md".toList, "m".toList, "md".toList⟩ true
    (by decide) (by decide) (by decide) (by decide) (by decide)).1

/-! ### Theorems for claims C7, C8, C10 -/

/-- C7: an embed resolving to a markdown file yields exactly one text content
part, whose text is the (possibly subpath-sliced) literal text of the embedded
file — an infix of the embedded file's raw text, so embed syntax inside the
embedded file is never recursively expanded. -/
theorem markdown_embed_single_level (env : Env) (markdownFile : TFile)
    (b64 : Bool) (emb : EmbedCache) (embeddedFile : TFile)
    (hlink : emb.link ≠ [])
    (hres : env.getFirstLinkpathDest (parseLinktext emb.link).1
      markdownFile.path = some embeddedFile)
    (hmd : embeddedFile.extension = "md".toList) :
    partToContentParts env markdownFile b64 (RangePart.embed emb) =
      [ContentPart.text (embedMarkdownText env embeddedFile
        (parseLinktext emb.link).2)] ∧
    embedMarkdownText env embeddedFile (parseLinktext emb.link).2 <:+:
      env.cachedRead embeddedFile := by
  constructor
  · simp only [partToContentParts]
    rw [if_pos hlink]
    rw [hres]
    dsimp only
    rw [if_pos hmd]
  · unfold embedMarkdownText
    dsimp only
    split_ifs with hs
    · split
      · exact List.infix_refl _
      · split
        · exact List.infix_refl _
        · exact substringStr_isInfix _ _ _
        · exact substringStr_isInfix _ _ _
    · exact List.infix_refl _

/-- A markdown file X whose text itself contains embed syntax `![[Y]]`. -/
def fileXmd : TFile := ⟨"X.md".toList, "X".toList, "md".toList⟩

/-- A vault in which the link "X" resolves to `fileXmd`, whose text embeds Y. -/
def envX : Env :=
  { getFileCache := fun _ => none
    cachedRead := fun f => if f = fileXmd then "hello ![[Y]] world".toList
      else "YRESOLVED".toList
    getFirstLinkpathDest := fun link _ =>
      if link = "X".toList then some fileXmd else none
    resolveSubpath := fun _ _ => none
    imageToDataURL := fun _ => none
    readBinary := fun _ => [] }

/-- C7 witness: embedding X, whose own text contains `![[Y]]`, yields one
text part holding X's literal text with `![[Y]]` left as plain text. -/
theorem markdown_embed_single_level_witness :
    ("X".toList ≠ ([] : List Char)) ∧
    partToContentParts envX fileXmd true
        (RangePart.embed ⟨"X".toList, ⟨⟨0, 0⟩, ⟨0, 6⟩⟩⟩) =
      [ContentPart.text (embedMarkdownText envX fileXmd
        (parseLinktext "X".toList).2)] ∧
    embedMarkdownText envX fileXmd (parseLinktext "X".toList).2 =
      "hello ![[Y]] world".toList ∧
    "![[Y]]".toList <:+:
      embedMarkdownText envX fileXmd (parseLinktext "X".toList).2 := by
  refine ⟨by decide, ?_, by decide, ?_⟩
  · exact (markdown_embed_single_level envX fileXmd true
      ⟨"X".toList, ⟨⟨0, 0⟩, ⟨0, 6⟩⟩⟩ fileXmd (by decide) (by decide)
      (by decide)).1
  · exact ⟨"hello ".toList, " world".toList, by decide⟩

/-- C8: an embed whose link does not resolve contributes zero content parts
while the build continues: with valid text on both sides of the broken embed
the output is exactly the two text parts. -/
theorem broken_embed_tolerance (markdown : List Char) (sOff eOff : Nat)
    (emb : EmbedCache) (env : Env) (markdownFile : TFile) (b64 : Bool)
    (hres : env.getFirstLinkpathDest (parseLinktext emb.link).1
      markdownFile.path = none)
    (h1 : emb.position.start.offset > sOff)
    (h2 : eOff > emb.position.stop.offset + 1)
    (hA : trimStr (sliceStr markdown sOff emb.position.start.offset) ≠ [])
    (hB : trimStr (sliceStr markdown (emb.position.stop.offset + 1) eOff) ≠ []) :
    partToContentParts env markdownFile b64 (RangePart.embed emb) = [] ∧
    rangeContentParts markdown sOff eOff [emb] env markdownFile b64 =
      [ContentPart.text (trimStr (sliceStr markdown sOff
        emb.position.start.offset)),
       ContentPart.text (trimStr (sliceStr markdown
        (emb.position.stop.offset + 1) eOff))] := by
  have hskip : partToContentParts env markdownFile b64 (RangePart.embed emb)
      = [] := by
    simp only [partToContentParts]
    by_cases hl : emb.link = []
    · rw [if_neg (not_not_intro hl)]
    · rw [if_pos hl]
      rw [hres]
  have hc : emb.position.start.offset ≥ sOff ∧
      emb.position.stop.offset ≤ eOff := ⟨by omega, by omega⟩
  have hsplit : splitRangeAux markdown sOff eOff [emb] sOff =
      [RangePart.text (trimStr (sliceStr markdown sOff
        emb.position.start.offset)),
       RangePart.embed emb,
       RangePart.text (trimStr (sliceStr markdown
        (emb.position.stop.offset + 1) eOff))] := by
    simp only [splitRangeAux]
    rw [if_pos hc, if_pos h1, if_pos h2]
    simp
  refine ⟨hskip, ?_⟩
  unfold rangeContentParts
  rw [hsplit]
  simp only [List.flatMap_cons, List.flatMap_nil, List.append_nil, hskip]
  simp only [partToContentParts]
  rw [if_pos hA, if_pos hB]
  simp

/-- C8 witness: "ab ![[nope]] cd" with an unresolvable embed in the middle
yields exactly the two text parts "ab" and "cd". -/
theorem broken_embed_tolerance_witness :
    ((3 : Nat) > 0 ∧ (15 : Nat) > 12 + 1) ∧
    rangeContentParts ("ab ![[nope]] cd".toList) 0 15
        [⟨"nope".toList, ⟨⟨0, 3⟩, ⟨0, 12⟩⟩⟩] triv_env
        ⟨"m.md".toList, "m".toList, "md".toList⟩ true =
      [ContentPart.text (trimStr (sliceStr ("ab ![[nope]] cd".toList) 0 3)),
       ContentPart.text (trimStr (sliceStr ("ab ![[nope]] cd".toList) (12 + 1) 15))] ∧
    trimStr (sliceStr ("ab ![[nope]] cd".toList) 0 3) = "ab".toList ∧
    trimStr (sliceStr ("ab ![[nope]] cd".toList) (12 + 1) 15) = "cd".toList := by
  refine ⟨by decide, ?_, by decide, by decide⟩
  exact (broken_embed_tolerance ("ab ![[nope]] cd".toList) 0 15
    ⟨"nope".toList, ⟨⟨0, 3⟩, ⟨0, 12⟩⟩⟩ triv_env
    ⟨"m.md".toList, "m".toList, "md".toList⟩ true
    (by decide) (by decide) (by decide) (by decide) (by decide)).2

/-- C10: a markdown embed whose link carries a subpath that cannot be
resolved (no metadata cache entry for the embedded file, or the subpath
resolver returns none) is neither skipped nor an error: the entire embedded
file's unsliced text is emitted as the text content part. -/
theorem subpath_unresolved_whole_file (env : Env) (markdownFile : TFile)
    (b64 : Bool) (emb : EmbedCache) (embeddedFile : TFile)
    (hlink : emb.link ≠ [])
    (hres : env.getFirstLinkpathDest (parseLinktext emb.link).1
      markdownFile.path = some embeddedFile)
    (hmd : embeddedFile.extension = "md".toList)
    (hsub : (parseLinktext emb.link).2 ≠ [])
    (hfail : env.getFileCache embeddedFile = none ∨
      ∃ c, env.getFileCache embeddedFile = some c ∧
        env.resolveSubpath c (parseLinktext emb.link).2 = none) :
    partToContentParts env markdownFile b64 (RangePart.embed emb) =
      [ContentPart.text (env.cachedRead embeddedFile)] := by
  simp only [partToContentParts]
  rw [if_pos hlink]
  rw [hres]
  dsimp only
  rw [if_pos hmd]
  unfold embedMarkdownText
  dsimp only
  rw [if_pos hsub]
  rcases hfail with hnone | ⟨c, hc, hrs⟩
  · rw [hnone]
  · rw [hc]
    dsimp only
    rw [hrs]

/-- A markdown file Z with a cache entry but no resolvable subpaths. -/
def fileZmd : TFile := ⟨"Z.md".toList, "Z".toList, "md".toList⟩

/-- A vault in which "Z" resolves to `fileZmd`, which has a cache, but no
subpath of it resolves. -/
def envZ : Env :=
  { getFileCache := fun f => if f = fileZmd then some ⟨[], []⟩ else none
    cachedRead := fun f => if f = fileZmd then "Z full text".toList else []
    getFirstLinkpathDest := fun link _ =>
      if link = "Z".toList then some fileZmd else none
    resolveSubpath := fun _ _ => none
    imageToDataURL := fun _ => none
    readBinary := fun _ => [] }

/-- C10 witness: the embed `![[Z#missing]]` emits Z's whole text. -/
theorem subpath_unresolved_whole_file_witness :
    ("Z#missing".toList ≠ ([] : List Char)) ∧
    (parseLinktext ("Z#missing".toList)).2 = "#missing".toList ∧
    partToContentParts envZ fileXmd true
        (RangePart.embed ⟨"Z#missing".toList, ⟨⟨0, 0⟩, ⟨0, 14⟩⟩⟩) =
      [ContentPart.text (envZ.cachedRead fileZmd)] ∧
    envZ.cachedRead fileZmd = "Z full text".toList := by
  refine ⟨by decide, by decide, ?_, by decide⟩
  exact subpath_unresolved_whole_file envZ fileXmd true
    ⟨"Z#missing".toList, ⟨⟨0, 0⟩, ⟨0, 14⟩⟩⟩ fileZmd (by decide) (by decide)
    (by decide) (by decide)
    (Or.inr ⟨⟨[], []⟩, by decide, by decide⟩)

/-! ### Heading path (source: `getHeadingPathToCursor`, main.ts lines 360-389) -/

/-- The backward scan of `getHeadingPathToCursor`.  `fuel` is one past the
next index to examine (the source's `for (let i = length-1; i >= 0; i--)`);
`cur` is the index of the `currentHeading` found so far (the source keeps the
heading object, which the index determines) and `path` the accepted indices.
While `cur` is unset, a heading with start line ≤ the cursor line is accepted;
once set, a heading is accepted only when its start line and level are both
strictly below the current heading's. -/
def hpLoop (headings : List HeadingCache) (cursorLine : Nat) :
    Nat → Option Nat → List Nat → Option Nat × List Nat
  | 0, cur, path => (cur, path)
  | i + 1, cur, path =>
    match cur with
    | some j =>
      if (headings.getD i default).position.start.line <
            (headings.getD j default).position.start.line ∧
          (headings.getD i default).level < (headings.getD j default).level then
        hpLoop headings cursorLine i (some i) (i :: path)
      else
        hpLoop headings cursorLine i (some j) path
    | none =>
      if (headings.getD i default).position.start.line ≤ cursorLine then
        hpLoop headings cursorLine i (some i) (i :: path)
      else
        hpLoop headings cursorLine i none path

/-- `getHeadingPathToCursor(headings, cursorLine)`: indices of the chain of
headings from the topmost ancestor down to the heading containing the cursor;
empty when no heading starts at or before the cursor line. -/
def getHeadingPathToCursor (headings : List HeadingCache) (cursorLine : Nat) :
    List Nat :=
  let r := hpLoop headings cursorLine headings.length none []
  match r.1 with
  | none => []
  | some _ => r.2

/-- Start line of heading `i` (shorthand used in statements). -/
def hLine (headings : List HeadingCache) (i : Nat) : Nat :=
  (headings.getD i default).position.start.line

/-- Level of heading `i` (shorthand used in statements). -/
def hLevel (headings : List HeadingCache) (i : Nat) : Nat :=
  (headings.getD i default).level

/-- Largest index `k < i` whose heading starts at or before the cursor line
(reference function for the first phase of the backward scan). -/
def lastLE (headings : List HeadingCache) (cursorLine : Nat) : Nat → Option Nat
  | 0 => none
  | i + 1 =>
    if (headings.getD i default).position.start.line ≤ cursorLine then some i
    else lastLE headings cursorLine i

/-- Reference function for the second phase of the backward scan: the greedy
ancestor chain of heading `j` among indices below `i`, in increasing index
order (each accepted index becomes the new comparison point). -/
def ancChain (headings : List HeadingCache) : Nat → Nat → List Nat
  | 0, _ => []
  | i + 1, j =>
    if (headings.getD i default).position.start.line <
          (headings.getD j default).position.start.line ∧
        (headings.getD i default).level < (headings.getD j default).level then
      ancChain headings i i ++ [i]
    else
      ancChain headings i j

/-- Phase 1: before any heading is found, the scan finds exactly the largest
index at or before the cursor line. -/
theorem hpLoop_none_eq (headings : List HeadingCache) (cursorLine : Nat) :
    ∀ (i : Nat) (p : List Nat),
      hpLoop headings cursorLine i none p =
        match lastLE headings cursorLine i with
        | none => (none, p)
        | some j => hpLoop headings cursorLine j (some j) (j :: p) := by
  intro i
  induction i with
  | zero => intro p; rfl
  | succ i ih =>
    intro p
    simp only [hpLoop, lastLE]
    split_ifs with hc
    · rfl
    · exact ih p

/-- Phase 2: once a heading is found, the scan prepends exactly the greedy
ancestor chain, and the final current heading stays set. -/
theorem hpLoop_some_eq (headings : List HeadingCache) (cursorLine : Nat) :
    ∀ (i j : Nat) (p : List Nat),
      ∃ j', hpLoop headings cursorLine i (some j) p =
        (some j', ancChain headings i j ++ p) := by
  intro i
  induction i with
  | zero => intro j p; exact ⟨j, rfl⟩
  | succ i ih =>
    intro j p
    simp only [hpLoop, ancChain]
    split_ifs with hc
    · obtain ⟨j', hj'⟩ := ih i (i :: p)
      exact ⟨j', by rw [hj', List.append_assoc, List.singleton_append]⟩
    · exact ih j p

/-- The path returned by `getHeadingPathToCursor` is empty when no heading
starts at or before the cursor, and otherwise is the greedy ancestor chain of
the innermost heading `j` followed by `j` itself. -/
theorem getHeadingPathToCursor_eq (headings : List HeadingCache)
    (cursorLine : Nat) :
    getHeadingPathToCursor headings cursorLine =
      match lastLE headings cursorLine headings.length with
      | none => []
      | some j => ancChain headings j j ++ [j] := by
  unfold getHeadingPathToCursor
  rw [hpLoop_none_eq]
  rcases h1 : lastLE headings cursorLine headings.length with _ | j
  · rfl
  · obtain ⟨j', hj'⟩ := hpLoop_some_eq headings cursorLine j j [j]
    simp only [hj']

/-- A found `lastLE` index is in range, starts at or before the cursor line,
and every later index starts after the cursor line. -/
theorem lastLE_spec (headings : List HeadingCache) (cursorLine : Nat) :
    ∀ i j, lastLE headings cursorLine i = some j →
      j < i ∧ hLine headings j ≤ cursorLine ∧
      ∀ k, j < k → k < i → cursorLine < hLine headings k := by
  intro i
  induction i with
  | zero => intro j h; cases h
  | succ i ih =>
    intro j h
    unfold lastLE at h
    split_ifs at h with hc
    · injection h with h
      subst h
      refine ⟨Nat.lt_succ_self _, hc, ?_⟩
      intro k hk1 hk2
      omega
    · obtain ⟨hj1, hj2, hmax⟩ := ih j h
      refine ⟨Nat.lt_succ_of_lt hj1, hj2, ?_⟩
      intro k hk1 hk2
      rcases Nat.lt_or_ge k i with hki | hki
      · exact hmax k hk1 hki
      · have hk : k = i := by omega
        subst hk
        unfold hLine
        omega

/-- When every heading starts after the cursor line, no index is found. -/
theorem lastLE_eq_none (headings : List HeadingCache) (cursorLine : Nat) :
    ∀ i, (∀ k, k < i → cursorLine < hLine headings k) →
      lastLE headings cursorLine i = none := by
  intro i
  induction i with
  | zero => intro _; rfl
  | succ i ih =>
    intro hall
    unfold lastLE
    rw [if_neg]
    · exact ih (fun k hk => hall k (by omega))
    · have := hall i (by omega)
      unfold hLine at this
      omega

/-- The greedy ancestor chain, with its starting point appended, is a chain
of nearest strictly-shallower ancestors: consecutive entries have strictly
increasing start lines and levels, and no index strictly between them would
also have been accepted. -/
theorem ancChain_chain (headings : List HeadingCache) :
    ∀ i j, (∀ k, i ≤ k → k < j →
        ¬(hLine headings k < hLine headings j ∧
          hLevel headings k < hLevel headings j)) →
      List.Chain'
        (fun a b => hLine headings a < hLine headings b ∧
          hLevel headings a < hLevel headings b ∧
          ∀ k, a < k → k < b →
            ¬(hLine headings k < hLine headings b ∧
              hLevel headings k < hLevel headings b))
        (ancChain headings i j ++ [j]) := by
  intro i
  induction i with
  | zero =>
    intro j _
    simp [ancChain]
  | succ i ih =>
    intro j hH
    simp only [ancChain]
    split_ifs with hc
    · have hbase := ih i
        (fun k hk1 hk2 => absurd (Nat.lt_of_le_of_lt hk1 hk2) (lt_irrefl _))
      rw [List.append_assoc, List.singleton_append]
      have hstep : ∀ x ∈ (ancChain headings i i ++ [i]).getLast?,
          ∀ y ∈ ([j] : List Nat).head?,
          hLine headings x < hLine headings y ∧
          hLevel headings x < hLevel headings y ∧
          ∀ k, x < k → k < y →
            ¬(hLine headings k < hLine headings y ∧
              hLevel headings k < hLevel headings y) := by
        intro x hx y hy
        rw [List.getLast?_concat] at hx
        simp only [List.head?_cons, Option.mem_def, Option.some.injEq] at hx hy
        subst hx
        subst hy
        exact ⟨hc.1, hc.2, fun k hk1 hk2 => hH k (by omega) hk2⟩
      have := List.Chain'.append hbase (List.chain'_singleton j) hstep
      simpa using this
    · refine ih j ?_
      intro k hk1 hk2
      rcases Nat.eq_or_lt_of_le hk1 with heq | hlt
      · subst heq
        exact hc
      · exact hH k (by omega) hk2

/-- Under document order (pairwise strictly increasing start lines), index
order gives start-line order. -/
theorem pairwise_hLine_mono (headings : List HeadingCache)
    (hsort : List.Pairwise
      (fun g1 g2 => g1.position.start.line < g2.position.start.line) headings) :
    ∀ a b, a < b → b < headings.length → hLine headings a < hLine headings b := by
  intro a b hab hb
  have ha : a < headings.length := lt_trans hab hb
  have hp := List.pairwise_iff_getElem.mp hsort a b ha hb hab
  simp only [hLine, List.getD_eq_getElem?_getD, List.getElem?_eq_getElem ha,
    List.getElem?_eq_getElem hb, Option.getD_some]
  exact hp

/-- C2: for a heading list in document order, `getHeadingPathToCursor`
returns the minimal enclosing chain: the last entry is the heading with the
largest start line at or before the cursor line; consecutive entries have
strictly smaller start line and strictly smaller level, with no index between
them also satisfying both; consequently the path's levels are strictly
increasing. -/
theorem getHeadingPathToCursor_minimal (headings : List HeadingCache)
    (cursorLine : Nat)
    (hsort : List.Pairwise
      (fun g1 g2 => g1.position.start.line < g2.position.start.line) headings) :
    (∀ j, (getHeadingPathToCursor headings cursorLine).getLast? = some j →
      hLine headings j ≤ cursorLine ∧
      ∀ k, k < headings.length → hLine headings k ≤ cursorLine →
        hLine headings k ≤ hLine headings j) ∧
    List.Chain'
      (fun a b => hLine headings a < hLine headings b ∧
        hLevel headings a < hLevel headings b ∧
        ∀ k, a < k → k < b →
          ¬(hLine headings k < hLine headings b ∧
            hLevel headings k < hLevel headings b))
      (getHeadingPathToCursor headings cursorLine) ∧
    List.Chain' (fun a b => hLevel headings a < hLevel headings b)
      (getHeadingPathToCursor headings cursorLine) := by
  rcases h1 : lastLE headings cursorLine headings.length with _ | j <;>
    rw [getHeadingPathToCursor_eq, h1]
  · refine ⟨?_, ?_, ?_⟩ <;> simp
  · obtain ⟨hjlt, hjle, hjmax⟩ :=
      lastLE_spec headings cursorLine headings.length j h1
    have hchain := ancChain_chain headings j j
      (fun k hk1 hk2 => absurd (Nat.lt_of_le_of_lt hk1 hk2) (lt_irrefl _))
    refine ⟨?_, hchain, hchain.imp (fun _ _ hab => hab.2.1)⟩
    intro j0 hj0
    rw [List.getLast?_concat] at hj0
    injection hj0 with hj0
    subst hj0
    refine ⟨hjle, ?_⟩
    intro k hk hkle
    rcases Nat.lt_trichotomy k j with hlt | heq | hgt
    · exact le_of_lt (pairwise_hLine_mono headings hsort k j hlt hjlt)
    · subst heq; exact le_refl _
    · exact absurd hkle (not_le_of_lt (hjmax k hgt hk))

/-- The spec's path-minimality example: headings at (line, level)
(1,1), (2,2), (4,1), (5,4). -/
def exPathHeadings : List HeadingCache :=
  [⟨1, "h1".toList, ⟨⟨1, 10⟩, ⟨1, 14⟩⟩⟩,
   ⟨2, "h2".toList, ⟨⟨2, 15⟩, ⟨2, 20⟩⟩⟩,
   ⟨1, "h3".toList, ⟨⟨4, 30⟩, ⟨4, 34⟩⟩⟩,
   ⟨4, "h4".toList, ⟨⟨5, 35⟩, ⟨5, 42⟩⟩⟩]

/-- C2 witness: with the cursor at line 5, the path is `[2, 3]` (the later
same-level heading shadows the earlier one), and the theorem applies. -/
theorem getHeadingPathToCursor_minimal_witness :
    List.Pairwise
      (fun g1 g2 => g1.position.start.line < g2.position.start.line)
      exPathHeadings ∧
    getHeadingPathToCursor exPathHeadings 5 = [2, 3] ∧
    List.Chain' (fun a b => hLevel exPathHeadings a < hLevel exPathHeadings b)
      (getHeadingPathToCursor exPathHeadings 5) := by
  refine ⟨by decide, by decide, ?_⟩
  exact (getHeadingPathToCursor_minimal exPathHeadings 5 (by decide)).2.2

/-! ### Thread assembler
(source: `convertCurrentThreadToMessages`, main.ts lines 401-483) -/

/-- Message content: assistant messages carry a single string, user messages
an ordered content-part list (mirrors the OpenAI message param shapes the
source constructs). -/
inductive MessageContent where
  | str (s : List Char)
  | parts (ps : List ContentPart)
deriving DecidableEq, Repr

/-- A chat message: role ("system" / "user" / "assistant") and content. -/
structure Message where
  role : List Char
  content : MessageContent
deriving DecidableEq, Repr

/-- `initMessages(systemMessage)`: the message list starts with exactly one
system message. -/
def initMessages (systemMessage : List Char) : List Message :=
  [⟨"system".toList, MessageContent.str systemMessage⟩]

/-- Result record of `convertCurrentThreadToMessages` (`IThreadMessages`). -/
structure IThreadMessages where
  messages : List Message
  heading : HeadingCache
  rangeEnd : EditorPosition
deriving DecidableEq, Repr

/-- The loop of `convertCurrentThreadToMessages` over the heading path: for
each index, compute the heading's range; an assistant heading contributes the
literal editor text from one line after the heading line to the range end as
a single string; any other heading contributes the content-part list of its
range.  Errors from the range conversion propagate. -/
def threadLoop (markdownFile : TFile) (env : Env) (doc : List Char)
    (headings : List HeadingCache) :
    List Nat → List Message → Option HeadingCache → EditorPosition →
    Except (List Char) (List Message × Option HeadingCache × EditorPosition)
  | [], messages, heading, rangeEnd => Except.ok (messages, heading, rangeEnd)
  | i :: rest, messages, _, _ =>
    let heading := headings.getD i default
    let r := getHeadingRange headings i doc
    let role := headingRole heading.heading
    if role = "assistant".toList then
      let m := getRange doc ⟨heading.position.stop.line + 1, 0⟩ r.rangeEnd
      threadLoop markdownFile env doc headings rest
        (messages ++ [⟨role, MessageContent.str m⟩]) (some heading) r.rangeEnd
    else
      match convertRangeToContentParts (some r.rangeStartOffset)
          (some r.rangeEndOffset) markdownFile env true with
      | Except.error e => Except.error e
      | Except.ok contentParts =>
        threadLoop markdownFile env doc headings rest
          (messages ++ [⟨role, MessageContent.parts contentParts⟩])
          (some heading) r.rangeEnd

/-- `convertCurrentThreadToMessages(markdownFile, systemMessage, app, editor)`:
fails when the file cache is missing; computes the heading path to the cursor
and fails when it is empty; otherwise iterates the path accumulating
messages after the initial system message. -/
def convertCurrentThreadToMessages (markdownFile : TFile)
    (systemMessage : List Char) (env : Env) (doc : List Char)
    (cursorLine : Nat) : Except (List Char) IThreadMessages :=
  match env.getFileCache markdownFile with
  | none =>
    Except.error ("Could not find cache for ".toList ++ markdownFile.path)
  | some cache =>
    let headings := cache.headings
    let headingPath := getHeadingPathToCursor headings cursorLine
    if headingPath = [] then
      Except.error ("No headings to work with in ".toList ++ markdownFile.path)
    else
      match threadLoop markdownFile env doc headings headingPath
          (initMessages systemMessage) none ⟨0, 0⟩ with
      | Except.error e => Except.error e
      | Except.ok (_, none, _) =>
        Except.error "Really unexpected that we have no last heading here.".toList
      | Except.ok (messages, some heading, rangeEnd) =>
        Except.ok ⟨messages, heading, rangeEnd⟩

/-- The message contributed by the heading at index `i` of the path
(reference function for the loop). -/
def msgFor (env : Env) (markdownFile : TFile) (doc : List Char)
    (headings : List HeadingCache) (embeds : List EmbedCache) (i : Nat) :
    Message :=
  let heading := headings.getD i default
  let r := getHeadingRange headings i doc
  if headingRole heading.heading = "assistant".toList then
    ⟨"assistant".toList, MessageContent.str
      (getRange doc ⟨heading.position.stop.line + 1, 0⟩ r.rangeEnd)⟩
  else
    ⟨"user".toList, MessageContent.parts
      (rangeContentParts (env.cachedRead markdownFile) r.rangeStartOffset
        r.rangeEndOffset embeds env markdownFile true)⟩

/-- Final `currentHeading` state of the loop (reference function). -/
def lastHeadingState (headings : List HeadingCache) :
    List Nat → Option HeadingCache → Option HeadingCache
  | [], h0 => h0
  | i :: rest, _ => lastHeadingState headings rest (some (headings.getD i default))

/-- Final `rangeEnd` state of the loop (reference function). -/
def lastRangeEndState (headings : List HeadingCache) (doc : List Char) :
    List Nat → EditorPosition → EditorPosition
  | [], re0 => re0
  | i :: rest, _ =>
    lastRangeEndState headings doc rest (getHeadingRange headings i doc).rangeEnd

/-- When the path is nonempty the loop's final current heading is set. -/
theorem lastHeadingState_isSome (headings : List HeadingCache) :
    ∀ (l : List Nat) (h0 : Option HeadingCache), l ≠ [] →
      ∃ h, lastHeadingState headings l h0 = some h := by
  intro l
  induction l with
  | nil => intro h0 h; exact absurd rfl h
  | cons i rest ih =>
    intro h0 _
    by_cases hr : rest = []
    · subst hr; exact ⟨headings.getD i default, rfl⟩
    · exact ih _ hr

/-- A heading not classified assistant is classified user. -/
theorem headingRole_user_of_not_assistant (h : List Char)
    (hna : headingRole h ≠ "assistant".toList) :
    headingRole h = "user".toList := by
  unfold headingRole at hna ⊢
  dsimp only at hna ⊢
  split_ifs at hna ⊢ with hc
  · exact absurd rfl hna
  · rfl

/-- The loop appends exactly one message per path index, in path order. -/
theorem threadLoop_eq (markdownFile : TFile) (env : Env) (doc : List Char)
    (cache : FileCache)
    (hcache : env.getFileCache markdownFile = some cache) :
    ∀ (l : List Nat) (messages : List Message) (h0 : Option HeadingCache)
      (re0 : EditorPosition),
      threadLoop markdownFile env doc cache.headings l messages h0 re0 =
        Except.ok (messages ++ l.map
            (msgFor env markdownFile doc cache.headings cache.embeds),
          lastHeadingState cache.headings l h0,
          lastRangeEndState cache.headings doc l re0) := by
  intro l
  induction l with
  | nil =>
    intro messages h0 re0
    simp [threadLoop, lastHeadingState, lastRangeEndState]
  | cons i rest ih =>
    intro messages h0 re0
    simp only [threadLoop, lastHeadingState, lastRangeEndState, List.map_cons]
    by_cases hrole : headingRole (cache.headings.getD i default).heading =
      "assistant".toList
    · rw [if_pos hrole, ih]
      unfold msgFor
      dsimp only
      rw [if_pos hrole, hrole]
      simp [List.append_assoc]
    · rw [if_neg hrole]
      have huser := headingRole_user_of_not_assistant _ hrole
      have hconv : convertRangeToContentParts
          (some (getHeadingRange cache.headings i doc).rangeStartOffset)
          (some (getHeadingRange cache.headings i doc).rangeEndOffset)
          markdownFile env true =
          Except.ok (rangeContentParts (env.cachedRead markdownFile)
            (getHeadingRange cache.headings i doc).rangeStartOffset
            (getHeadingRange cache.headings i doc).rangeEndOffset
            cache.embeds env markdownFile true) := by
        unfold convertRangeToContentParts
        rw [hcache]
        rfl
      rw [hconv]
      dsimp only
      rw [ih]
      unfold msgFor
      dsimp only
      rw [if_neg hrole, huser]
      simp [List.append_assoc]

/-- C1 amended: whenever the heading path is nonempty, the conversion
succeeds and returns the system message followed by exactly one message per
path entry in path order; an assistant heading yields a single-string message
holding the literal editor text from one line after the heading line to the
heading's range end, and any other heading yields the ordered content-part
list of its range. -/
theorem convertCurrentThreadToMessages_structure (markdownFile : TFile)
    (systemMessage : List Char) (env : Env) (doc : List Char)
    (cursorLine : Nat) (cache : FileCache)
    (hcache : env.getFileCache markdownFile = some cache)
    (hne : getHeadingPathToCursor cache.headings cursorLine ≠ []) :
    ∃ r, convertCurrentThreadToMessages markdownFile systemMessage env doc
        cursorLine = Except.ok r ∧
      r.messages = ⟨"system".toList, MessageContent.str systemMessage⟩ ::
        (getHeadingPathToCursor cache.headings cursorLine).map
          (msgFor env markdownFile doc cache.headings cache.embeds) ∧
      (∀ i, headingRole (cache.headings.getD i default).heading =
          "assistant".toList →
        msgFor env markdownFile doc cache.headings cache.embeds i =
          ⟨"assistant".toList, MessageContent.str (getRange doc
            ⟨(cache.headings.getD i default).position.stop.line + 1, 0⟩
            (getHeadingRange cache.headings i doc).rangeEnd)⟩) ∧
      (∀ i, headingRole (cache.headings.getD i default).heading ≠
          "assistant".toList →
        msgFor env markdownFile doc cache.headings cache.embeds i =
          ⟨"user".toList, MessageContent.parts
            (rangeContentParts (env.cachedRead markdownFile)
              (getHeadingRange cache.headings i doc).rangeStartOffset
              (getHeadingRange cache.headings i doc).rangeEndOffset
              cache.embeds env markdownFile true)⟩) := by
  unfold convertCurrentThreadToMessages
  rw [hcache]
  dsimp only
  rw [if_neg hne]
  rw [threadLoop_eq markdownFile env doc cache hcache]
  obtain ⟨hlast, hlasteq⟩ := lastHeadingState_isSome cache.headings _ none hne
  rw [hlasteq]
  dsimp only
  refine ⟨_, rfl, ?_, ?_, ?_⟩
  · simp [initMessages]
  · intro i hi
    unfold msgFor
    dsimp only
    rw [if_pos hi]
  · intro i hi
    unfold msgFor
    dsimp only
    rw [if_neg hi]

/-- The spec's end-to-end example document. -/
def exDoc : List Char := "# Q\nHello\n\n## AI\nHi there\n\n### Q2\nBye".toList

/-- The headings of `exDoc` as the metadata cache reports them. -/
def exHeadings : List HeadingCache :=
  [⟨1, "Q".toList, ⟨⟨0, 0⟩, ⟨0, 3⟩⟩⟩,
   ⟨2, "AI".toList, ⟨⟨3, 11⟩, ⟨3, 16⟩⟩⟩,
   ⟨3, "Q2".toList, ⟨⟨6, 27⟩, ⟨6, 33⟩⟩⟩]

/-- The markdown file holding `exDoc`. -/
def exFile : TFile := ⟨"ex.md".toList, "ex".toList, "md".toList⟩

/-- A vault holding exactly `exFile` with text `exDoc` and its heading cache. -/
def exEnv : Env :=
  { getFileCache := fun f => if f = exFile then some ⟨exHeadings, []⟩ else none
    cachedRead := fun f => if f = exFile then exDoc else []
    getFirstLinkpathDest := fun _ _ => none
    resolveSubpath := fun _ _ => none
    imageToDataURL := fun _ => none
    readBinary := fun _ => [] }

/-- C1 counterexample: on the spec's own example (cursor on the line of
"Bye"), the assistant message's content is the literal text "Hi there\n" —
including the newline before the separator line — not "Hi there" as the
claimed message list states. -/
theorem convertThread_example_counterexample :
    (match convertCurrentThreadToMessages exFile "SYS".toList exEnv exDoc 7 with
      | Except.ok r => r.messages
      | Except.error _ => []) =
      [⟨"system".toList, MessageContent.str ("SYS".toList)⟩,
       ⟨"user".toList, MessageContent.parts [ContentPart.text ("Hello".toList)]⟩,
       ⟨"assistant".toList, MessageContent.str ("Hi there\n".toList)⟩,
       ⟨"user".toList, MessageContent.parts [ContentPart.text ("Bye".toList)]⟩] ∧
    "Hi there\n".toList ≠ "Hi there".toList := by
  refine ⟨by decide, by decide⟩

/-- C1 amended witness: the structure theorem applies to the example
document, whose heading path is `[0, 1, 2]`. -/
theorem convertThread_structure_witness :
    exEnv.getFileCache exFile = some ⟨exHeadings, []⟩ ∧
    getHeadingPathToCursor exHeadings 7 = [0, 1, 2] ∧
    (∃ r, convertCurrentThreadToMessages exFile "SYS".toList exEnv exDoc 7 =
        Except.ok r ∧
      r.messages = ⟨"system".toList, MessageContent.str ("SYS".toList)⟩ ::
        (getHeadingPathToCursor (FileCache.mk exHeadings []).headings 7).map
          (msgFor exEnv exFile exDoc (FileCache.mk exHeadings []).headings
            (FileCache.mk exHeadings []).embeds) ∧
      (∀ i, headingRole (((FileCache.mk exHeadings []).headings.getD i
          default)).heading = "assistant".toList →
        msgFor exEnv exFile exDoc (FileCache.mk exHeadings []).headings
          (FileCache.mk exHeadings []).embeds i =
          ⟨"assistant".toList, MessageContent.str (getRange exDoc
            ⟨(((FileCache.mk exHeadings []).headings.getD i
              default)).position.stop.line + 1, 0⟩
            (getHeadingRange (FileCache.mk exHeadings []).headings i
              exDoc).rangeEnd)⟩) ∧
      (∀ i, headingRole (((FileCache.mk exHeadings []).headings.getD i
          default)).heading ≠ "assistant".toList →
        msgFor exEnv exFile exDoc (FileCache.mk exHeadings []).headings
          (FileCache.mk exHeadings []).embeds i =
          ⟨"user".toList, MessageContent.parts
            (rangeContentParts (exEnv.cachedRead exFile)
              (getHeadingRange (FileCache.mk exHeadings []).headings i
                exDoc).rangeStartOffset
              (getHeadingRange (FileCache.mk exHeadings []).headings i
                exDoc).rangeEndOffset
              (FileCache.mk exHeadings []).embeds exEnv exFile true)⟩)) := by
  refine ⟨by decide, by decide, ?_⟩
  exact convertCurrentThreadToMessages_structure exFile "SYS".toList exEnv exDoc
    7 ⟨exHeadings, []⟩ (by decide) (by decide)

/-- C9: when no heading starts at or before the cursor line the path is
empty, and the conversion fails with the no-headings error, producing no
message list at all. -/
theorem no_heading_error (markdownFile : TFile) (systemMessage : List Char)
    (env : Env) (doc : List Char) (cursorLine : Nat) (cache : FileCache)
    (hcache : env.getFileCache markdownFile = some cache)
    (hno : ∀ k, k < cache.headings.length →
      cursorLine < hLine cache.headings k) :
    getHeadingPathToCursor cache.headings cursorLine = [] ∧
    convertCurrentThreadToMessages markdownFile systemMessage env doc
        cursorLine =
      Except.error ("No headings to work with in ".toList ++
        markdownFile.path) := by
  have hempty : getHeadingPathToCursor cache.headings cursorLine = [] := by
    rw [getHeadingPathToCursor_eq,
      lastLE_eq_none cache.headings cursorLine _ hno]
  refine ⟨hempty, ?_⟩
  unfold convertCurrentThreadToMessages
  rw [hcache]
  dsimp only
  rw [if_pos hempty]

/-- A document whose only heading starts at line 5. -/
def exLateHeadings : List HeadingCache :=
  [⟨1, "Q".toList, ⟨⟨5, 50⟩, ⟨5, 53⟩⟩⟩]

/-- A vault holding `exFile` with the late-heading cache. -/
def exLateEnv : Env :=
  { getFileCache := fun f => if f = exFile then some ⟨exLateHeadings, []⟩
      else none
    cachedRead := fun f => if f = exFile then exDoc else []
    getFirstLinkpathDest := fun _ _ => none
    resolveSubpath := fun _ _ => none
    imageToDataURL := fun _ => none
    readBinary := fun _ => [] }

/-- C9 witness: cursor at line 2, the single heading starts at line 5. -/
theorem no_heading_error_witness :
    (∀ k, k < exLateHeadings.length → 2 < hLine exLateHeadings k) ∧
    getHeadingPathToCursor exLateHeadings 2 = [] ∧
    convertCurrentThreadToMessages exFile "SYS".toList exLateEnv exDoc 2 =
      Except.error ("No headings to work with in ".toList ++ exFile.path) := by
  refine ⟨by decide, ?_⟩
  exact no_heading_error exFile "SYS".toList exLateEnv exDoc 2
    ⟨exLateHeadings, []⟩ (by decide) (by decide)
